import Mathlib

/-!
Shallow embedding of the salary-statistics pipeline (src/main.py, src/Helper.py).

Python dictionaries are modelled as association lists `List (K × V)` kept in
insertion order; Python floats are modelled as exact rationals `ℚ`; fallible
Python code (KeyError, ValueError, ZeroDivisionError, IndexError) is modelled
with `Except Err`.
-/

set_option linter.unusedVariables false

/-- Equality of `Except` values is decidable when it is on both sides. -/
instance {ε α : Type} [DecidableEq ε] [DecidableEq α] : DecidableEq (Except ε α) := fun a b =>
  match a, b with
  | .ok x, .ok y =>
    if h : x = y then isTrue (by rw [h]) else isFalse (fun hc => by cases hc; exact h rfl)
  | .error e, .error f =>
    if h : e = f then isTrue (by rw [h]) else isFalse (fun hc => by cases hc; exact h rfl)
  | .ok _, .error _ => isFalse (fun hc => by cases hc)
  | .error _, .ok _ => isFalse (fun hc => by cases hc)

/-- Errors the program can raise at runtime, one constructor per Python
exception site relevant to the modelled code. -/
inductive Err where
  /-- `KeyError` from `currency_to_rub[salary_currency]` (main.py line 47). -/
  | unknownCurrency : Err
  /-- `ValueError` from `int(date[:4])` (Helper.py line 7). -/
  | malformedDate : Err
  /-- `ZeroDivisionError` from `len(salaries) / vacancies_count` (main.py line 150). -/
  | zeroDivision : Err
  /-- `IndexError` from `self.pools[0]` on an empty pool list (main.py line 222). -/
  | indexError : Err
deriving DecidableEq, Repr

/-- Does the key occur in the association list (`key in subject` in Python)? -/
def containsKey {K V : Type} [DecidableEq K] (d : List (K × V)) (k : K) : Bool :=
  d.any (fun p => decide (p.1 = k))

/-- `d[k]` as a total function: the value at the first occurrence of `k`. -/
def dictLookup {K V : Type} [DecidableEq K] (d : List (K × V)) (k : K) : Option V :=
  (d.find? (fun p => decide (p.1 = k))).map Prod.snd

/-- The value at the last occurrence of `k` (for Python dicts, which never hold
duplicate keys, this agrees with `dictLookup`). -/
def lastLookup {K V : Type} [DecidableEq K] : List (K × V) → K → Option V
  | [], _ => none
  | p :: rest, k =>
    match lastLookup rest k with
    | some v => some v
    | none => if p.1 = k then some p.2 else none

/-- The key list of the dictionary, in insertion order. -/
def keysOf {K V : Type} (d : List (K × V)) : List K :=
  d.map Prod.fst

/-- `d[k] = v` on a Python dict: replace in place if the key exists, else
append at the end (insertion order). -/
def setKey {K V : Type} [DecidableEq K] (d : List (K × V)) (k : K) (v : V) : List (K × V) :=
  if containsKey d k then d.map (fun p => if p.1 = k then (p.1, v) else p)
  else d ++ [(k, v)]

/-- Python `d.update(e)`: write every entry of `e` into `d` in order. -/
def dictUpdate {K V : Type} [DecidableEq K] (d e : List (K × V)) : List (K × V) :=
  e.foldl (fun acc p => setKey acc p.1 p.2) d

/-- `DataSet.increment` (main.py lines 78-91) specialised to list values, as it
is always used: `subject[key] += value` extends the stored list, a missing key
is bound to `value`. -/
def increment {K : Type} [DecidableEq K] (d : List (K × List ℚ)) (k : K) (v : List ℚ) :
    List (K × List ℚ) :=
  if containsKey d k then d.map (fun p => if p.1 = k then (p.1, p.2 ++ v) else p)
  else d ++ [(k, v)]

/-- Python `int(x)` on a float: truncation toward zero of a rational. -/
def pyInt (q : ℚ) : ℤ :=
  Int.tdiv q.num q.den

/-- Numeric value of a decimal digit, `none` for any other character. -/
def digitVal (c : Char) : Option ℕ :=
  if c.isDigit then some (c.toNat - 48) else none

/-- Accumulate a decimal digit string left to right. -/
def parseDigitsAux : ℕ → List Char → Option ℕ
  | acc, [] => some acc
  | acc, c :: cs =>
    match digitVal c with
    | none => none
    | some d => parseDigitsAux (acc * 10 + d) cs

/-- A non-empty all-digit string as a natural number. -/
def parseDigits : List Char → Option ℕ
  | [] => none
  | l => parseDigitsAux 0 l

/-- Python `int(s)` on a string, restricted to an optional sign followed by
decimal digits (the shape the 4-character date slice can take). -/
def pyIntOfString (s : String) : Option ℤ :=
  match s.data with
  | '-' :: rest => (parseDigits rest).map (fun n => -(n : ℤ))
  | '+' :: rest => (parseDigits rest).map (fun n => (n : ℤ))
  | l => (parseDigits l).map (fun n => (n : ℤ))

/-- Does `pat` occur at the start of `hay`? -/
def leadsWith : List Char → List Char → Bool
  | [], _ => true
  | _ :: _, [] => false
  | p :: ps, h :: hs => p == h && leadsWith ps hs

/-- Does `pat` occur anywhere in `hay` (as character list)? -/
def subOf (pat : List Char) : List Char → Bool
  | [] => pat.isEmpty
  | h :: hs => leadsWith pat (h :: hs) || subOf pat hs

/-- Python `hay.find(pat) != -1`: substring containment, case sensitive. -/
def strContains (hay pat : String) : Bool :=
  subOf pat.data hay.data

/-- `Helper.parse_year_from_date_slice` (Helper.py lines 5-7): `int(date[:4])`. -/
def parse_year_from_date_slice (date : String) : Option ℤ :=
  pyIntOfString (date.take 4)

/-- `Vacancy.currency_to_rub` (main.py lines 23-34), decimal literals as exact
rationals. -/
def currency_to_rub : List (String × ℚ) :=
  [("AZN", 3568/100), ("BYR", 2391/100), ("EUR", 599/10), ("GEL", 2174/100),
   ("KGS", 76/100), ("KZT", 13/100), ("RUR", 1), ("UAH", 164/100),
   ("USD", 6066/100), ("UZS", 55/10000)]

/-- One raw CSV row after the out-of-scope CSV collaborator has parsed it: the
salary bounds carry the value `float(...)` would produce, the other fields stay
strings. -/
structure Row where
  name : String
  salary_from : ℚ
  salary_to : ℚ
  salary_currency : String
  area_name : String
  published_at : String
deriving DecidableEq, Repr

/-- The typed vacancy record built by `Vacancy.__init__` (main.py lines 36-49). -/
structure Vacancy where
  name : String
  salary_from : ℤ
  salary_to : ℤ
  salary_currency : String
  salary_average : ℚ
  area_name : String
  year : ℤ
deriving DecidableEq, Repr

/-- `Vacancy.__init__` (main.py lines 36-49).  Field order follows the source:
the currency lookup (possible `KeyError`) happens before the year parse
(possible `ValueError`). -/
def Vacancy.make (row : Row) : Except Err Vacancy :=
  let sf : ℤ := pyInt row.salary_from
  let st : ℤ := pyInt row.salary_to
  match dictLookup currency_to_rub row.salary_currency with
  | none => .error .unknownCurrency
  | some rate =>
    match parse_year_from_date_slice row.published_at with
    | none => .error .malformedDate
    | some y =>
      .ok { name := row.name, salary_from := sf, salary_to := st,
            salary_currency := row.salary_currency,
            salary_average := rate * ((sf : ℚ) + (st : ℚ)) / 2,
            area_name := row.area_name, year := y }

/-- The in-loop accumulator state of `DataSet.get_statistics`
(main.py lines 129-139). -/
structure AccState where
  salary : List (ℤ × List ℚ)
  salary_of_vacancy_name : List (ℤ × List ℚ)
  salary_city : List (String × List ℚ)
  vacancies_count : ℕ
deriving DecidableEq, Repr

/-- One iteration of the row loop in `DataSet.get_statistics`
(main.py lines 133-139), for target profession `vname`. -/
def stepRow (vname : String) (st : AccState) (row : Row) : Except Err AccState :=
  match Vacancy.make row with
  | .error e => .error e
  | .ok v =>
    .ok { salary := increment st.salary v.year [v.salary_average],
          salary_of_vacancy_name :=
            if strContains v.name vname then
              increment st.salary_of_vacancy_name v.year [v.salary_average]
            else st.salary_of_vacancy_name,
          salary_city := increment st.salary_city v.area_name [v.salary_average],
          vacancies_count := st.vacancies_count + 1 }

/-- The row loop of `DataSet.get_statistics`, threading the accumulator, a
raised error aborting the whole chunk. -/
def runChunkAux (vname : String) : AccState → List Row → Except Err AccState
  | st, [] => .ok st
  | st, r :: rest =>
    match stepRow vname st r with
    | .error e => .error e
    | .ok st' => runChunkAux vname st' rest

/-- All accumulators of one chunk, started empty (main.py lines 129-139). -/
def runChunk (vname : String) (rows : List Row) : Except Err AccState :=
  runChunkAux vname ⟨[], [], [], 0⟩ rows

/-- `DataSet.get_average_dict` (main.py lines 93-107):
`result[key] = int(sum(data) / len(data))`. -/
def getAverageDict {K : Type} (data : List (K × List ℚ)) : List (K × ℤ) :=
  data.map (fun p => (p.1, pyInt (p.2.sum / (p.2.length : ℚ))))

/-- The 4-tuple returned by `DataSet.get_statistics` (main.py line 158). -/
structure Stats where
  stat_salary : List (ℤ × ℤ)
  vacancies_number : List (ℤ × ℤ)
  stat_salary_by_vac : List (ℤ × ℤ)
  vacs_per_name : List (ℤ × ℤ)
deriving DecidableEq, Repr

/-- The finalisation tail of `DataSet.get_statistics` (main.py lines 140-147):
counts, empty-target zero fallback, integer averaging. -/
def finalizeStats (st : AccState) : Stats :=
  let vacancies_number := st.salary.map (fun p => (p.1, (p.2.length : ℤ)))
  let vacs_per_name := st.salary_of_vacancy_name.map (fun p => (p.1, (p.2.length : ℤ)))
  let pair :=
    if st.salary_of_vacancy_name = [] then
      (st.salary.map (fun p => (p.1, ([0] : List ℚ))),
       vacancies_number.map (fun p => (p.1, (0 : ℤ))))
    else (st.salary_of_vacancy_name, vacs_per_name)
  { stat_salary := getAverageDict st.salary,
    vacancies_number := vacancies_number,
    stat_salary_by_vac := getAverageDict pair.1,
    vacs_per_name := pair.2 }

/-- The city-share loop of `DataSet.get_statistics` (main.py lines 148-157).
Its computed dictionaries are dropped by the `return` on line 158; its only
observable effect is the possible `ZeroDivisionError` on line 150, raised when
the loop body runs (`salary_city` non-empty) with `vacancies_count == 0`. -/
def sharesCheck (st : AccState) : Except Err Unit :=
  if st.salary_city ≠ [] ∧ st.vacancies_count = 0 then .error .zeroDivision
  else .ok ()

/-- `DataSet.get_statistics` (main.py lines 121-158) on one chunk's valid rows. -/
def getStatistics (vname : String) (rows : List Row) : Except Err Stats :=
  match runChunk vname rows with
  | .error e => .error e
  | .ok st =>
    match sharesCheck st with
    | .error e => .error e
    | .ok _ => .ok (finalizeStats st)

/-- `answer[k].update(...)` for `k = 0..3` (main.py lines 224-225): the merge
of one further finalized chunk result into the running tuple. -/
def statsUpdate (a b : Stats) : Stats :=
  { stat_salary := dictUpdate a.stat_salary b.stat_salary,
    vacancies_number := dictUpdate a.vacancies_number b.vacancies_number,
    stat_salary_by_vac := dictUpdate a.stat_salary_by_vac b.stat_salary_by_vac,
    vacs_per_name := dictUpdate a.vacs_per_name b.vacs_per_name }

/-- The loop of `Multiprocessing.get_united_dict` (main.py lines 223-225):
fold the remaining pool results into the running tuple; a chunk that raised
re-raises at its `.get()`. -/
def mergeRest (acc : Stats) : List (Except Err Stats) → Except Err Stats
  | [] => .ok acc
  | p :: rest =>
    match p with
    | .error e => .error e
    | .ok s => mergeRest (statsUpdate acc s) rest

/-- `Multiprocessing.get_united_dict` (main.py lines 217-226).  `pools[0]` on
an empty list raises `IndexError`.  The final `return self.pools[0].get()`
returns the cached first tuple, whose four dictionaries were updated in place,
i.e. exactly the folded merge. -/
def getUnitedDict (pools : List (Except Err Stats)) : Except Err Stats :=
  match pools with
  | [] => .error .indexError
  | p :: rest =>
    match p with
    | .error e => .error e
    | .ok a => mergeRest a rest

/-- Union of keys with concatenation of the per-key value lists, the merge the
spec describes (one `increment` per incoming entry). -/
def concatDict {K : Type} [DecidableEq K] (d e : List (K × List ℚ)) : List (K × List ℚ) :=
  e.foldl (fun acc p => increment acc p.1 p.2) d

/-- Spec-side merge of two chunk accumulators: union keys, concatenate value
lists, sum the counts (spec section 4.3). -/
def accConcatMerge (a b : AccState) : AccState :=
  { salary := concatDict a.salary b.salary,
    salary_of_vacancy_name := concatDict a.salary_of_vacancy_name b.salary_of_vacancy_name,
    salary_city := concatDict a.salary_city b.salary_city,
    vacancies_count := a.vacancies_count + b.vacancies_count }

/-- The merge of claim C1 as the spec words it (not as the code implements it):
aggregate every chunk to its raw accumulators, merge them by key union and
list concatenation, and average only once, after the merge. -/
def specMergedStats (vname : String) (chunks : List (List Row)) : Except Err Stats := do
  let accs ← chunks.mapM (runChunk vname)
  let merged := accs.foldl accConcatMerge ⟨[], [], [], 0⟩
  pure (finalizeStats merged)

/-- `true` exactly on a raised `ZeroDivisionError`. -/
def isZeroDiv (r : Except Err Stats) : Bool :=
  match r with
  | .error .zeroDivision => true
  | _ => false

/-- The four output dictionaries of a `Stats` tuple, in result order. -/
def projList : List (Stats → List (ℤ × ℤ)) :=
  [fun s => s.stat_salary, fun s => s.vacancies_number,
   fun s => s.stat_salary_by_vac, fun s => s.vacs_per_name]

/-- Claim C9's invariant: every year key of the two target dictionaries is a
key of `stat_salary`. -/
def TargetKeysSub (s : Stats) : Prop :=
  (∀ k ∈ keysOf s.stat_salary_by_vac, k ∈ keysOf s.stat_salary) ∧
  (∀ k ∈ keysOf s.vacs_per_name, k ∈ keysOf s.stat_salary)

/-- Claim C3's no-match shape: both target dictionaries have exactly the year
keys of `stat_salary` and only zero values. -/
def NoTargetZero (s : Stats) : Prop :=
  (∀ k, k ∈ keysOf s.stat_salary_by_vac ↔ k ∈ keysOf s.stat_salary) ∧
  (∀ k, k ∈ keysOf s.vacs_per_name ↔ k ∈ keysOf s.stat_salary) ∧
  (∀ p ∈ s.stat_salary_by_vac, p.2 = 0) ∧
  (∀ p ∈ s.vacs_per_name, p.2 = 0)

/-- Concrete row: matches target "prog", year 2020, salary average 100. -/
def rowProg : Row :=
  { name := "prog", salary_from := 100, salary_to := 100, salary_currency := "RUR",
    area_name := "A", published_at := "2020-07-05T18:19:30+0300" }

/-- Concrete row: does not match "prog", year 2021, salary average 250. -/
def rowData : Row :=
  { name := "data", salary_from := 200, salary_to := 300, salary_currency := "RUR",
    area_name := "B", published_at := "2021-01-01T00:00:00+0300" }

/-- Concrete row: does not match "prog", year 2020, salary average 250. -/
def rowOther : Row :=
  { name := "other", salary_from := 200, salary_to := 300, salary_currency := "RUR",
    area_name := "A", published_at := "2020-03-04T00:00:00+0300" }

/-- Concrete row with a currency code absent from `currency_to_rub`. -/
def rowBadCur : Row :=
  { name := "x", salary_from := 10, salary_to := 20, salary_currency := "XXX",
    area_name := "A", published_at := "2020-01-01" }

/-! ## Dictionary lemmas -/

theorem containsKey_iff {K V : Type} [DecidableEq K] (d : List (K × V)) (k : K) :
    containsKey d k = true ↔ k ∈ keysOf d := by
  simp [containsKey, keysOf, List.any_eq_true, List.mem_map]

theorem containsKey_false_iff {K V : Type} [DecidableEq K] (d : List (K × V)) (k : K) :
    containsKey d k = false ↔ k ∉ keysOf d := by
  rw [← containsKey_iff]
  cases containsKey d k <;> simp

theorem dictLookup_cons {K V : Type} [DecidableEq K] (p : K × V) (d : List (K × V)) (k : K) :
    dictLookup (p :: d) k = if p.1 = k then some p.2 else dictLookup d k := by
  by_cases h : p.1 = k <;> simp [dictLookup, List.find?_cons, h]

theorem dictLookup_append {K V : Type} [DecidableEq K] (d e : List (K × V)) (k : K) :
    dictLookup (d ++ e) k =
      match dictLookup d k with
      | some v => some v
      | none => dictLookup e k := by
  induction d with
  | nil => simp [dictLookup]
  | cons p d ih =>
    by_cases h : p.1 = k <;> simp [dictLookup_cons, h, ih]

theorem keysOf_cons {K V : Type} (p : K × V) (d : List (K × V)) :
    keysOf (p :: d) = p.1 :: keysOf d := rfl

theorem lastLookup_cons {K V : Type} [DecidableEq K] (p : K × V) (d : List (K × V)) (k : K) :
    lastLookup (p :: d) k =
      match lastLookup d k with
      | some v => some v
      | none => if p.1 = k then some p.2 else none := rfl

theorem dictLookup_eq_none_iff {K V : Type} [DecidableEq K] (d : List (K × V)) (k : K) :
    dictLookup d k = none ↔ k ∉ keysOf d := by
  induction d with
  | nil => simp [dictLookup, keysOf]
  | cons p d ih =>
    rw [dictLookup_cons, keysOf_cons]
    by_cases h : p.1 = k
    · simp [h]
    · have h' : ¬(k = p.1) := fun hk => h hk.symm
      simp [h, h', List.mem_cons, ih]

theorem lastLookup_eq_none_iff {K V : Type} [DecidableEq K] (d : List (K × V)) (k : K) :
    lastLookup d k = none ↔ k ∉ keysOf d := by
  induction d with
  | nil => simp [lastLookup, keysOf]
  | cons p d ih =>
    rw [lastLookup_cons, keysOf_cons]
    cases hl : lastLookup d k with
    | some v =>
      have hk : k ∈ keysOf d := by
        by_contra hnk
        exact absurd (ih.mpr hnk) (by simp [hl])
      simp [List.mem_cons, hk]
    | none =>
      have hnk := ih.mp hl
      by_cases h : p.1 = k
      · simp [h]
      · have h' : ¬(k = p.1) := fun hk => h hk.symm
        simp [h, h', List.mem_cons, hnk]

theorem dictLookup_map_of_mem {K V : Type} [DecidableEq K] (d : List (K × V)) (k : K) (v : V)
    (h : k ∈ keysOf d) :
    dictLookup (d.map (fun p => if p.1 = k then (p.1, v) else p)) k = some v := by
  induction d with
  | nil => simp [keysOf] at h
  | cons p d ih =>
    by_cases hp : p.1 = k
    · simp only [List.map_cons, hp, if_pos]
      rw [dictLookup_cons]
      simp [hp]
    · simp only [List.map_cons, hp, if_neg, not_false_iff]
      rw [dictLookup_cons]
      simp only [hp, if_neg, not_false_iff]
      rw [keysOf_cons, List.mem_cons] at h
      exact ih (h.resolve_left (fun hk => hp hk.symm))

theorem dictLookup_map_of_ne {K V : Type} [DecidableEq K] (d : List (K × V)) (k k' : K) (v : V)
    (h : k' ≠ k) :
    dictLookup (d.map (fun p => if p.1 = k then (p.1, v) else p)) k' = dictLookup d k' := by
  induction d with
  | nil => simp [dictLookup]
  | cons p d ih =>
    by_cases hp : p.1 = k
    · rw [List.map_cons, if_pos hp, dictLookup_cons, dictLookup_cons]
      have h1 : ¬(p.1 = k') := fun hc => h ((hp ▸ hc : k = k')).symm
      simp [h1, ih]
    · rw [List.map_cons, if_neg hp, dictLookup_cons, dictLookup_cons]
      by_cases hpk : p.1 = k' <;> simp [hpk, ih]

theorem dictLookup_setKey_self {K V : Type} [DecidableEq K] (d : List (K × V)) (k : K) (v : V) :
    dictLookup (setKey d k v) k = some v := by
  rw [setKey]
  cases hc : containsKey d k with
  | true =>
    simp only [if_pos]
    exact dictLookup_map_of_mem d k v ((containsKey_iff d k).mp hc)
  | false =>
    simp only [Bool.false_eq_true, if_neg, not_false_iff]
    rw [dictLookup_append]
    rw [(dictLookup_eq_none_iff d k).mpr ((containsKey_false_iff d k).mp hc)]
    simp [dictLookup_cons]

theorem dictLookup_setKey_ne {K V : Type} [DecidableEq K] (d : List (K × V)) (k k' : K) (v : V)
    (h : k' ≠ k) :
    dictLookup (setKey d k v) k' = dictLookup d k' := by
  rw [setKey]
  cases hc : containsKey d k with
  | true =>
    simp only [if_pos]
    exact dictLookup_map_of_ne d k k' v h
  | false =>
    simp only [Bool.false_eq_true, if_neg, not_false_iff]
    rw [dictLookup_append]
    have hkk : ¬(k = k') := fun hc => h hc.symm
    cases hd : dictLookup d k' with
    | some w => simp
    | none => simp [dictLookup_cons, hkk, dictLookup]

theorem keysOf_map_pair {K V W : Type} (d : List (K × V)) (g : K × V → W) :
    keysOf (d.map (fun p => (p.1, g p))) = keysOf d := by
  simp [keysOf, List.map_map]

theorem mem_keys_setKey {K V : Type} [DecidableEq K] (d : List (K × V)) (k k' : K) (v : V) :
    k' ∈ keysOf (setKey d k v) ↔ k' ∈ keysOf d ∨ k' = k := by
  rw [setKey]
  cases hc : containsKey d k with
  | true =>
    simp only [if_pos]
    have hm : k ∈ keysOf d := (containsKey_iff d k).mp hc
    have hk : keysOf (d.map (fun p => if p.1 = k then (p.1, v) else p)) = keysOf d := by
      simp only [keysOf, List.map_map]
      congr 1
      funext p
      by_cases hp : p.1 = k <;> simp [hp]
    rw [hk]
    constructor
    · exact Or.inl
    · rintro (h | rfl)
      · exact h
      · exact hm
  | false =>
    simp only [Bool.false_eq_true, if_neg, not_false_iff]
    simp [keysOf, List.mem_append]

theorem mem_keys_increment {K : Type} [DecidableEq K] (d : List (K × List ℚ)) (k k' : K)
    (v : List ℚ) :
    k' ∈ keysOf (increment d k v) ↔ k' ∈ keysOf d ∨ k' = k := by
  rw [increment]
  cases hc : containsKey d k with
  | true =>
    simp only [if_pos]
    have hm : k ∈ keysOf d := (containsKey_iff d k).mp hc
    have hk : keysOf (d.map (fun p => if p.1 = k then (p.1, p.2 ++ v) else p)) = keysOf d := by
      simp only [keysOf, List.map_map]
      congr 1
      funext p
      by_cases hp : p.1 = k <;> simp [hp]
    rw [hk]
    constructor
    · exact Or.inl
    · rintro (h | rfl)
      · exact h
      · exact hm
  | false =>
    simp only [Bool.false_eq_true, if_neg, not_false_iff]
    simp [keysOf, List.mem_append]

theorem dictUpdate_nil {K V : Type} [DecidableEq K] (d : List (K × V)) :
    dictUpdate d [] = d := rfl

theorem dictUpdate_cons {K V : Type} [DecidableEq K] (d : List (K × V)) (p : K × V)
    (e : List (K × V)) :
    dictUpdate d (p :: e) = dictUpdate (setKey d p.1 p.2) e := rfl

theorem dictLookup_dictUpdate {K V : Type} [DecidableEq K] (d e : List (K × V)) (k : K) :
    dictLookup (dictUpdate d e) k =
      match lastLookup e k with
      | some v => some v
      | none => dictLookup d k := by
  induction e generalizing d with
  | nil => simp [dictUpdate_nil, lastLookup]
  | cons p e ih =>
    rw [dictUpdate_cons, ih, lastLookup_cons]
    cases hl : lastLookup e k with
    | some v => simp
    | none =>
      by_cases h : p.1 = k
      · subst h
        simp [dictLookup_setKey_self]
      · simp [h, dictLookup_setKey_ne d p.1 k p.2 (fun hc => h hc.symm)]

theorem mem_keys_dictUpdate {K V : Type} [DecidableEq K] (d e : List (K × V)) (k : K) :
    k ∈ keysOf (dictUpdate d e) ↔ k ∈ keysOf d ∨ k ∈ keysOf e := by
  induction e generalizing d with
  | nil => simp [dictUpdate_nil, keysOf]
  | cons p e ih =>
    rw [dictUpdate_cons, ih, mem_keys_setKey, keysOf_cons, List.mem_cons]
    tauto

theorem snd_eq_of_mem_setKey {K V : Type} [DecidableEq K] (d : List (K × V)) (k : K) (v z : V)
    (hd : ∀ p ∈ d, p.2 = z) (hv : v = z) :
    ∀ p ∈ setKey d k v, p.2 = z := by
  rw [setKey]
  cases hc : containsKey d k with
  | true =>
    simp only [if_pos]
    intro p hp
    rcases List.mem_map.mp hp with ⟨q, hq, rfl⟩
    by_cases h : q.1 = k <;> simp [h, hv, hd q hq]
  | false =>
    simp only [Bool.false_eq_true, if_neg, not_false_iff]
    intro p hp
    rcases List.mem_append.mp hp with h | h
    · exact hd p h
    · rcases List.mem_singleton.mp h with rfl
      exact hv

theorem snd_eq_of_mem_dictUpdate {K V : Type} [DecidableEq K] (d e : List (K × V)) (z : V)
    (hd : ∀ p ∈ d, p.2 = z) (he : ∀ p ∈ e, p.2 = z) :
    ∀ p ∈ dictUpdate d e, p.2 = z := by
  induction e generalizing d with
  | nil => exact hd
  | cons p e ih =>
    rw [dictUpdate_cons]
    exact ih (setKey d p.1 p.2)
      (snd_eq_of_mem_setKey d p.1 p.2 z hd (he p (List.mem_cons_self p e)))
      (fun q hq => he q (List.mem_cons_of_mem p hq))

/-! ## Averaging lemmas -/

theorem dictLookup_map_snd {K V W : Type} [DecidableEq K] (d : List (K × V)) (f : V → W)
    (k : K) :
    dictLookup (d.map (fun p => (p.1, f p.2))) k = (dictLookup d k).map f := by
  induction d with
  | nil => simp [dictLookup]
  | cons p d ih =>
    rw [List.map_cons, dictLookup_cons, dictLookup_cons]
    by_cases h : p.1 = k <;> simp [h, ih]

theorem keysOf_getAverageDict {K : Type} (d : List (K × List ℚ)) :
    keysOf (getAverageDict d) = keysOf d :=
  keysOf_map_pair d _

theorem dictLookup_getAverageDict {K : Type} [DecidableEq K] (d : List (K × List ℚ)) (k : K) :
    dictLookup (getAverageDict d) k =
      (dictLookup d k).map (fun l => pyInt (l.sum / (l.length : ℚ))) :=
  dictLookup_map_snd d (fun l => pyInt (l.sum / (l.length : ℚ))) k

theorem pyInt_eq_floor {q : ℚ} (h : 0 ≤ q) : pyInt q = ⌊q⌋ := by
  have h1 : (0 : ℤ) ≤ q.num := Rat.num_nonneg.mpr h
  have h2 : (0 : ℤ) ≤ (q.den : ℤ) := Int.ofNat_zero_le q.den
  rw [pyInt, Int.tdiv_eq_ediv h1 h2, Rat.floor_def]

/-! ## Record Normalizer lemmas -/

theorem vacancyMake_unknownCurrency (row : Row)
    (h : dictLookup currency_to_rub row.salary_currency = none) :
    Vacancy.make row = .error .unknownCurrency := by
  unfold Vacancy.make
  rw [h]

theorem vacancyMake_ok_fields (row : Row) (rate : ℚ) (y : ℤ)
    (hc : dictLookup currency_to_rub row.salary_currency = some rate)
    (hy : parse_year_from_date_slice row.published_at = some y) :
    Vacancy.make row =
      .ok { name := row.name,
            salary_from := pyInt row.salary_from,
            salary_to := pyInt row.salary_to,
            salary_currency := row.salary_currency,
            salary_average :=
              rate * ((pyInt row.salary_from : ℚ) + (pyInt row.salary_to : ℚ)) / 2,
            area_name := row.area_name,
            year := y } := by
  unfold Vacancy.make
  rw [hc, hy]

theorem vacancyMake_name (row : Row) (v : Vacancy) (h : Vacancy.make row = .ok v) :
    v.name = row.name := by
  unfold Vacancy.make at h
  cases hc : dictLookup currency_to_rub row.salary_currency with
  | none => rw [hc] at h; cases h
  | some rate =>
    rw [hc] at h
    cases hy : parse_year_from_date_slice row.published_at with
    | none => rw [hy] at h; cases h
    | some y =>
      rw [hy] at h
      injection h with h2
      rw [← h2]

/-! ## Chunk Aggregator lemmas -/

theorem stepRow_ok_inv (vname : String) (st : AccState) (row : Row) (st' : AccState)
    (h : stepRow vname st row = .ok st') :
    ∃ v, Vacancy.make row = .ok v ∧
      st'.salary = increment st.salary v.year [v.salary_average] ∧
      st'.salary_of_vacancy_name =
        (if strContains v.name vname then
          increment st.salary_of_vacancy_name v.year [v.salary_average]
         else st.salary_of_vacancy_name) ∧
      st'.salary_city = increment st.salary_city v.area_name [v.salary_average] ∧
      st'.vacancies_count = st.vacancies_count + 1 := by
  unfold stepRow at h
  cases hm : Vacancy.make row with
  | error e => rw [hm] at h; cases h
  | ok v =>
    rw [hm] at h
    injection h with h2
    subst h2
    exact ⟨v, rfl, rfl, rfl, rfl, rfl⟩

theorem runChunkAux_nil (vname : String) (st : AccState) :
    runChunkAux vname st [] = .ok st := rfl

theorem runChunkAux_cons (vname : String) (st : AccState) (r : Row) (rest : List Row) :
    runChunkAux vname st (r :: rest) =
      match stepRow vname st r with
      | .error e => .error e
      | .ok st' => runChunkAux vname st' rest := rfl

theorem runChunkAux_no_match (vname : String) (rows : List Row)
    (h : ∀ r ∈ rows, strContains r.name vname = false) :
    ∀ st out, runChunkAux vname st rows = .ok out →
      out.salary_of_vacancy_name = st.salary_of_vacancy_name := by
  induction rows with
  | nil =>
    intro st out hr
    rw [runChunkAux_nil] at hr
    injection hr with h2
    rw [h2]
  | cons r rest ih =>
    intro st out hr
    rw [runChunkAux_cons] at hr
    cases hs : stepRow vname st r with
    | error e => rw [hs] at hr; cases hr
    | ok st' =>
      rw [hs] at hr
      rcases stepRow_ok_inv vname st r st' hs with ⟨v, hm, _, hsov, _, _⟩
      have hname : v.name = r.name := vacancyMake_name r v hm
      have hmatch : strContains v.name vname = false := by
        rw [hname]; exact h r (List.mem_cons_self r rest)
      rw [hmatch] at hsov
      simp only [Bool.false_eq_true, if_neg, not_false_iff] at hsov
      rw [ih (fun q hq => h q (List.mem_cons_of_mem r hq)) st' out hr, hsov]

theorem runChunkAux_zero_city (vname : String) (rows : List Row) :
    ∀ st out, runChunkAux vname st rows = .ok out →
      (st.vacancies_count = 0 → st.salary_city = []) →
      (out.vacancies_count = 0 → out.salary_city = []) := by
  induction rows with
  | nil =>
    intro st out hr hinv
    rw [runChunkAux_nil] at hr
    injection hr with h2
    rw [← h2]
    exact hinv
  | cons r rest ih =>
    intro st out hr hinv
    rw [runChunkAux_cons] at hr
    cases hs : stepRow vname st r with
    | error e => rw [hs] at hr; cases hr
    | ok st' =>
      rw [hs] at hr
      rcases stepRow_ok_inv vname st r st' hs with ⟨v, _, _, _, _, hcount⟩
      exact ih st' out hr (fun hz => absurd hz (by rw [hcount]; exact Nat.succ_ne_zero _))

theorem runChunkAux_ok_rows (vname : String) (rows : List Row) :
    ∀ st out, runChunkAux vname st rows = .ok out →
      ∀ r ∈ rows, ∃ v, Vacancy.make r = .ok v := by
  induction rows with
  | nil => intro st out hr r hrin; cases hrin
  | cons r rest ih =>
    intro st out hr q hqin
    rw [runChunkAux_cons] at hr
    cases hs : stepRow vname st r with
    | error e => rw [hs] at hr; cases hr
    | ok st' =>
      rw [hs] at hr
      rcases stepRow_ok_inv vname st r st' hs with ⟨v, hm, _⟩
      rcases List.mem_cons.mp hqin with rfl | hq
      · exact ⟨v, hm⟩
      · exact ih st' out hr q hq

theorem runChunkAux_keys_sub (vname : String) (rows : List Row) :
    ∀ st out, runChunkAux vname st rows = .ok out →
      (∀ k ∈ keysOf st.salary_of_vacancy_name, k ∈ keysOf st.salary) →
      (∀ k ∈ keysOf out.salary_of_vacancy_name, k ∈ keysOf out.salary) := by
  induction rows with
  | nil =>
    intro st out hr hinv
    rw [runChunkAux_nil] at hr
    injection hr with h2
    rw [← h2]
    exact hinv
  | cons r rest ih =>
    intro st out hr hinv
    rw [runChunkAux_cons] at hr
    cases hs : stepRow vname st r with
    | error e => rw [hs] at hr; cases hr
    | ok st' =>
      rw [hs] at hr
      rcases stepRow_ok_inv vname st r st' hs with ⟨v, _, hsal, hsov, _, _⟩
      refine ih st' out hr ?_
      intro k hk
      rw [hsal, mem_keys_increment]
      rw [hsov] at hk
      by_cases hmatch : strContains v.name vname = true
      · rw [if_pos hmatch] at hk
        rcases (mem_keys_increment _ _ _ _).mp hk with hk' | rfl
        · exact Or.inl (hinv k hk')
        · exact Or.inr rfl
      · rw [if_neg hmatch] at hk
        exact Or.inl (hinv k hk)

/-! ## Finalizer lemmas -/

theorem pyInt_zero_singleton : pyInt (([(0 : ℚ)]).sum / ((([(0 : ℚ)]).length : ℕ) : ℚ)) = 0 := by
  have h1 : ([(0 : ℚ)]).sum = 0 := by simp
  rw [h1]
  norm_num
  rfl

theorem finalizeStats_empty_target (st : AccState) (h : st.salary_of_vacancy_name = []) :
    NoTargetZero (finalizeStats st) := by
  simp only [finalizeStats, h, List.map_nil, if_pos]
  refine ⟨?_, ?_, ?_, ?_⟩
  · intro k
    rw [keysOf_getAverageDict, keysOf_getAverageDict, keysOf_map_pair]
  · intro k
    rw [keysOf_map_pair, keysOf_map_pair, keysOf_getAverageDict]
  · intro p hp
    rcases List.mem_map.mp hp with ⟨q, hq, rfl⟩
    rcases List.mem_map.mp hq with ⟨x, hx, rfl⟩
    exact pyInt_zero_singleton
  · intro p hp
    rcases List.mem_map.mp hp with ⟨q, hq, rfl⟩
    rfl

theorem finalizeStats_keys_sub (st : AccState)
    (h : ∀ k ∈ keysOf st.salary_of_vacancy_name, k ∈ keysOf st.salary) :
    TargetKeysSub (finalizeStats st) := by
  by_cases he : st.salary_of_vacancy_name = []
  · have hz := finalizeStats_empty_target st he
    exact ⟨fun k hk => (hz.1 k).mp hk, fun k hk => (hz.2.1 k).mp hk⟩
  · simp only [finalizeStats, he, if_neg, not_false_iff, ite_false]
    constructor
    · intro k hk
      rw [keysOf_getAverageDict] at hk
      rw [keysOf_getAverageDict]
      exact h k hk
    · intro k hk
      rw [keysOf_map_pair] at hk
      rw [keysOf_getAverageDict]
      exact h k hk

/-! ## get_statistics lemmas -/

theorem getStatistics_ok_inv (vname : String) (rows : List Row) (s : Stats)
    (h : getStatistics vname rows = .ok s) :
    ∃ st, runChunk vname rows = .ok st ∧ s = finalizeStats st := by
  unfold getStatistics at h
  cases hr : runChunk vname rows with
  | error e => rw [hr] at h; cases h
  | ok st =>
    simp only [hr] at h
    cases hsc : sharesCheck st with
    | error e => simp [hsc] at h
    | ok u =>
      simp only [hsc] at h
      injection h with h2
      exact ⟨st, rfl, h2.symm⟩

theorem sharesCheck_ok_of (st : AccState)
    (h : st.vacancies_count = 0 → st.salary_city = []) : sharesCheck st = .ok () := by
  unfold sharesCheck
  rw [if_neg]
  rintro ⟨hne, hz⟩
  exact hne (h hz)

theorem vacancyMake_error_kinds (row : Row) (e : Err) (h : Vacancy.make row = .error e) :
    e = .unknownCurrency ∨ e = .malformedDate := by
  unfold Vacancy.make at h
  cases hc : dictLookup currency_to_rub row.salary_currency with
  | none =>
    rw [hc] at h
    injection h with h2
    exact Or.inl h2.symm
  | some rate =>
    rw [hc] at h
    cases hy : parse_year_from_date_slice row.published_at with
    | none =>
      rw [hy] at h
      injection h with h2
      exact Or.inr h2.symm
    | some y => rw [hy] at h; cases h

theorem stepRow_error_inv (vname : String) (st : AccState) (row : Row) (e : Err)
    (h : stepRow vname st row = .error e) : Vacancy.make row = .error e := by
  unfold stepRow at h
  cases hm : Vacancy.make row with
  | error e' =>
    rw [hm] at h
    injection h with h2
    rw [h2]
  | ok v => rw [hm] at h; cases h

theorem runChunkAux_error_kinds (vname : String) (rows : List Row) :
    ∀ st e, runChunkAux vname st rows = .error e →
      e = .unknownCurrency ∨ e = .malformedDate := by
  induction rows with
  | nil => intro st e h; cases h
  | cons r rest ih =>
    intro st e h
    rw [runChunkAux_cons] at h
    cases hs : stepRow vname st r with
    | error e' =>
      rw [hs] at h
      have hk := vacancyMake_error_kinds r e' (stepRow_error_inv vname st r e' hs)
      injection h with h2
      rw [← h2]
      exact hk
    | ok st' =>
      rw [hs] at h
      exact ih st' e h

/-! ## Merge lemmas -/

theorem mergeRest_map_ok (rest : List Stats) :
    ∀ a, mergeRest a (rest.map Except.ok) = .ok (rest.foldl statsUpdate a) := by
  induction rest with
  | nil => intro a; rfl
  | cons b rest ih =>
    intro a
    rw [List.map_cons]
    simp only [mergeRest, List.foldl_cons]
    exact ih (statsUpdate a b)

theorem mergeRest_ok_inv (pools : List (Except Err Stats)) :
    ∀ acc s, mergeRest acc pools = .ok s → ∀ p ∈ pools, ∃ t, p = .ok t := by
  induction pools with
  | nil => intro acc s h p hp; cases hp
  | cons q rest ih =>
    intro acc s h p hp
    cases hq : q with
    | error e => rw [hq] at h; simp only [mergeRest] at h; cases h
    | ok t =>
      rw [hq] at h
      simp only [mergeRest] at h
      rcases List.mem_cons.mp hp with rfl | hp'
      · exact ⟨t, hq⟩
      · exact ih (statsUpdate acc t) s h p hp'

theorem mergeRest_preserve (P : Stats → Prop)
    (hP : ∀ a b, P a → P b → P (statsUpdate a b)) (pools : List (Except Err Stats)) :
    ∀ acc s, (∀ p ∈ pools, ∀ t, p = .ok t → P t) → P acc →
      mergeRest acc pools = .ok s → P s := by
  induction pools with
  | nil =>
    intro acc s hall hacc h
    simp only [mergeRest] at h
    injection h with h2
    rw [← h2]
    exact hacc
  | cons q rest ih =>
    intro acc s hall hacc h
    cases hq : q with
    | error e => rw [hq] at h; simp only [mergeRest] at h; cases h
    | ok t =>
      rw [hq] at h
      simp only [mergeRest] at h
      exact ih (statsUpdate acc t) s (fun p hp => hall p (List.mem_cons_of_mem q hp))
        (hP acc t hacc (hall q (List.mem_cons_self q rest) t hq)) h

theorem noTargetZero_statsUpdate (a b : Stats) (ha : NoTargetZero a) (hb : NoTargetZero b) :
    NoTargetZero (statsUpdate a b) := by
  obtain ⟨ha1, ha2, ha3, ha4⟩ := ha
  obtain ⟨hb1, hb2, hb3, hb4⟩ := hb
  refine ⟨?_, ?_, ?_, ?_⟩
  · intro k
    simp only [statsUpdate]
    rw [mem_keys_dictUpdate, mem_keys_dictUpdate, ha1 k, hb1 k]
  · intro k
    simp only [statsUpdate]
    rw [mem_keys_dictUpdate, mem_keys_dictUpdate, ha2 k, hb2 k]
  · exact snd_eq_of_mem_dictUpdate _ _ 0 ha3 hb3
  · exact snd_eq_of_mem_dictUpdate _ _ 0 ha4 hb4

theorem targetKeysSub_statsUpdate (a b : Stats) (ha : TargetKeysSub a) (hb : TargetKeysSub b) :
    TargetKeysSub (statsUpdate a b) := by
  obtain ⟨ha1, ha2⟩ := ha
  obtain ⟨hb1, hb2⟩ := hb
  constructor
  · intro k hk
    simp only [statsUpdate] at hk ⊢
    rw [mem_keys_dictUpdate] at hk
    rw [mem_keys_dictUpdate]
    rcases hk with hk | hk
    · exact Or.inl (ha1 k hk)
    · exact Or.inr (hb1 k hk)
  · intro k hk
    simp only [statsUpdate] at hk ⊢
    rw [mem_keys_dictUpdate] at hk
    rw [mem_keys_dictUpdate]
    rcases hk with hk | hk
    · exact Or.inl (ha2 k hk)
    · exact Or.inr (hb2 k hk)

theorem lastLookup_eq_dictLookup {K V : Type} [DecidableEq K] (d : List (K × V))
    (h : (keysOf d).Nodup) (k : K) : lastLookup d k = dictLookup d k := by
  induction d with
  | nil => rfl
  | cons p d ih =>
    rw [keysOf_cons] at h
    rcases List.nodup_cons.mp h with ⟨hp, hd⟩
    rw [lastLookup_cons, dictLookup_cons]
    by_cases hk : p.1 = k
    · subst hk
      rw [(lastLookup_eq_none_iff d p.1).mpr hp]
      simp
    · rw [ih hd]
      cases hl : dictLookup d k with
      | some v => simp [hk]
      | none => simp [hk]

theorem getStatistics_not_zeroDiv (vname : String) (rows : List Row) :
    isZeroDiv (getStatistics vname rows) = false := by
  unfold getStatistics
  cases hr : runChunk vname rows with
  | error e =>
    rcases runChunkAux_error_kinds vname rows _ e hr with rfl | rfl <;> rfl
  | ok st =>
    have hz : st.vacancies_count = 0 → st.salary_city = [] :=
      runChunkAux_zero_city vname rows _ st hr (fun _ => rfl)
    simp only [sharesCheck_ok_of st hz]
    rfl

theorem getStatistics_no_match (vname : String) (rows : List Row)
    (h : ∀ r ∈ rows, strContains r.name vname = false) (s : Stats)
    (hs : getStatistics vname rows = .ok s) : NoTargetZero s := by
  rcases getStatistics_ok_inv vname rows s hs with ⟨st, hrun, rfl⟩
  exact finalizeStats_empty_target st (runChunkAux_no_match vname rows h _ st hrun)

theorem getStatistics_keys_sub (vname : String) (rows : List Row) (s : Stats)
    (hs : getStatistics vname rows = .ok s) : TargetKeysSub s := by
  rcases getStatistics_ok_inv vname rows s hs with ⟨st, hrun, rfl⟩
  refine finalizeStats_keys_sub st ?_
  exact runChunkAux_keys_sub vname rows _ st hrun (fun k hk => absurd hk (List.not_mem_nil k))

theorem getUnitedDict_ok_inv (pools : List (Except Err Stats)) (s : Stats)
    (h : getUnitedDict pools = .ok s) : ∀ p ∈ pools, ∃ t, p = .ok t := by
  cases pools with
  | nil => cases h
  | cons q rest =>
    cases hq : q with
    | error e => rw [hq] at h; simp only [getUnitedDict] at h; cases h
    | ok a =>
      rw [hq] at h
      simp only [getUnitedDict] at h
      intro p hp
      rcases List.mem_cons.mp hp with rfl | hp'
      · exact ⟨a, rfl⟩
      · exact mergeRest_ok_inv rest a s h p hp'

theorem getUnitedDict_preserve (P : Stats → Prop)
    (hP : ∀ a b, P a → P b → P (statsUpdate a b)) (pools : List (Except Err Stats))
    (hall : ∀ p ∈ pools, ∀ t, p = .ok t → P t) (s : Stats)
    (h : getUnitedDict pools = .ok s) : P s := by
  cases pools with
  | nil => cases h
  | cons q rest =>
    cases hq : q with
    | error e => rw [hq] at h; simp only [getUnitedDict] at h; cases h
    | ok a =>
      rw [hq] at h
      simp only [getUnitedDict] at h
      exact mergeRest_preserve P hP rest a s
        (fun p hp => hall p (List.mem_cons_of_mem q hp))
        (hall q (List.mem_cons_self q rest) a hq) h

theorem statsUpdate_proj (proj : Stats → List (ℤ × ℤ)) (hp : proj ∈ projList)
    (x y : Stats) : proj (statsUpdate x y) = dictUpdate (proj x) (proj y) := by
  simp only [projList, List.mem_cons, List.not_mem_nil, or_false] at hp
  rcases hp with rfl | rfl | rfl | rfl <;> rfl

theorem dictLookup_foldl_statsUpdate (f : Stats → List (ℤ × ℤ))
    (hf : ∀ x y, f (statsUpdate x y) = dictUpdate (f x) (f y))
    (rest : List Stats) (a : Stats)
    (hnd : ∀ s ∈ a :: rest, (keysOf (f s)).Nodup) (k : ℤ) :
    dictLookup (f (rest.foldl statsUpdate a)) k =
      (a :: rest).reverse.findSome? (fun s => dictLookup (f s) k) := by
  induction rest using List.reverseRecOn with
  | nil =>
    cases h : dictLookup (f a) k <;> simp [List.findSome?, h]
  | append_singleton rest b ih =>
    rw [List.foldl_append, List.foldl_cons, List.foldl_nil, hf, dictLookup_dictUpdate]
    have hb : (keysOf (f b)).Nodup := hnd b (by simp)
    rw [lastLookup_eq_dictLookup (f b) hb k]
    have hrev : (a :: (rest ++ [b])).reverse = b :: (a :: rest).reverse := by simp
    rw [hrev]
    have ih' := ih (fun s hs => hnd s (by
      rcases List.mem_cons.mp hs with rfl | hs'
      · exact List.mem_cons_self s (rest ++ [b])
      · exact List.mem_cons_of_mem a (List.mem_append_left [b] hs')))
    cases hfb : dictLookup (f b) k with
    | some v => simp [List.findSome?, hfb]
    | none => simp only [List.findSome?, hfb]; exact ih'

theorem mem_keys_foldl_statsUpdate (f : Stats → List (ℤ × ℤ))
    (hf : ∀ x y, f (statsUpdate x y) = dictUpdate (f x) (f y))
    (rest : List Stats) (a : Stats) (k : ℤ) :
    k ∈ keysOf (f (rest.foldl statsUpdate a)) ↔ ∃ s ∈ a :: rest, k ∈ keysOf (f s) := by
  induction rest using List.reverseRecOn with
  | nil => simp
  | append_singleton rest b ih =>
    rw [List.foldl_append, List.foldl_cons, List.foldl_nil, hf, mem_keys_dictUpdate, ih]
    constructor
    · rintro (⟨s, hs, hks⟩ | hkb)
      · rcases List.mem_cons.mp hs with rfl | hs'
        · exact ⟨s, List.mem_cons_self s (rest ++ [b]), hks⟩
        · exact ⟨s, List.mem_cons_of_mem a (List.mem_append_left [b] hs'), hks⟩
      · exact ⟨b, List.mem_cons_of_mem a (List.mem_append_right rest (List.mem_singleton_self b)), hkb⟩
    · rintro ⟨s, hs, hks⟩
      rcases List.mem_cons.mp hs with rfl | hs'
      · exact Or.inl ⟨s, List.mem_cons_self s rest, hks⟩
      · rcases List.mem_append.mp hs' with hs'' | hs''
        · exact Or.inl ⟨s, List.mem_cons_of_mem a hs'', hks⟩
        · rcases List.mem_singleton.mp hs'' with rfl
          exact Or.inr hks

/-! ## Claim theorems -/

unseal Rat.add Rat.mul Rat.inv Rat.sub in
/-- C1, counterexample.  The claim says the merge step concatenates the
per-key salary lists of all chunks before any averaging.  On the concrete
chunks `[rowProg]` (year 2020, one salary 100) and `[rowOther, rowOther]`
(year 2020, two salaries 250), `get_united_dict` returns 250 for 2020 — the
second chunk's own finalized average overwrote the first — while merging by
list concatenation before averaging (`specMergedStats`, the spec's words)
returns `(100 + 250 + 250) / 3` truncated, i.e. 200. -/
theorem c1_counterexample :
    getUnitedDict [getStatistics "zz" [rowProg], getStatistics "zz" [rowOther, rowOther]] =
      .ok { stat_salary := [(2020, 250)], vacancies_number := [(2020, 2)],
            stat_salary_by_vac := [(2020, 0)], vacs_per_name := [(2020, 0)] } ∧
    specMergedStats "zz" [[rowProg], [rowOther, rowOther]] =
      .ok { stat_salary := [(2020, 200)], vacancies_number := [(2020, 3)],
            stat_salary_by_vac := [(2020, 0)], vacs_per_name := [(2020, 0)] } := by
  constructor <;> decide

/-- C1, amended.  The merge does not operate on raw per-key lists at all:
each chunk is fully finalized (averaged) on its own, and `get_united_dict`
combines the finalized 4-tuples by Python dict `update`, folding
`statsUpdate` over the first chunk's tuple, so an overlapping key keeps only
the last chunk's already-averaged value. -/
theorem c1_amended (a : Stats) (rest : List Stats) :
    getUnitedDict (Except.ok a :: rest.map Except.ok) =
      .ok (rest.foldl statsUpdate a) := by
  simp only [getUnitedDict]
  exact mergeRest_map_ok rest a

/-- C2, counterexample.  Merging is not commutative: two finalized chunk
results holding different values for the same year 2020 merge to the second
argument's value, so the two orders give different outputs. -/
theorem c2_counterexample :
    getUnitedDict [Except.ok (⟨[(2020, 1)], [], [], []⟩ : Stats),
                   Except.ok ⟨[(2020, 2)], [], [], []⟩] ≠
    getUnitedDict [Except.ok (⟨[(2020, 2)], [], [], []⟩ : Stats),
                   Except.ok ⟨[(2020, 1)], [], [], []⟩] := by
  decide

/-- C2, amended.  Merging chunk results in any ORDER is not guaranteed to
agree (see the counterexample), but the associativity equation of the claim
does hold: merging `[A, B, C]` directly equals merging
`[merge [A, B], C]`. -/
theorem c2_amended (a b c : Stats) :
    getUnitedDict [Except.ok a, Except.ok b, Except.ok c] =
      getUnitedDict [getUnitedDict [Except.ok a, Except.ok b], Except.ok c] := rfl

unseal Rat.add Rat.mul Rat.inv Rat.sub in
/-- C3, counterexample.  Target profession `"prog"` matches a 2020 row of
the first chunk, so the claim's `otherwise` case applies and year 2021 —
which never has a matching row — should be absent from the target mappings.
But the second chunk (all rows in 2021, none matching) applied its own
per-chunk zero fallback, so the merged output maps 2021 to 0 in both
`stat_salary_by_vac` and `vacs_per_name` instead of omitting it. -/
theorem c3_counterexample :
    strContains rowProg.name "prog" = true ∧
    strContains rowData.name "prog" = false ∧
    getUnitedDict [getStatistics "prog" [rowProg], getStatistics "prog" [rowData]] =
      .ok { stat_salary := [(2020, 100), (2021, 250)],
            vacancies_number := [(2020, 1), (2021, 1)],
            stat_salary_by_vac := [(2020, 100), (2021, 0)],
            vacs_per_name := [(2020, 1), (2021, 0)] } := by
  refine ⟨rfl, rfl, by decide⟩

/-- C3, amended.  The first half of the claim holds: when no row of any
chunk matches the target substring, the merged `stat_salary_by_vac` and
`vacs_per_name` carry exactly the year keys of `stat_salary`, every value 0.
The `otherwise` half is wrong on the code: the zero fallback is applied per
chunk, so a year coming only from chunks without any matching row still
appears in the target mappings mapped to 0 (see the counterexample), rather
than being absent. -/
theorem c3_amended (vname : String) (chunks : List (List Row))
    (hm : ∀ c ∈ chunks, ∀ r ∈ c, strContains r.name vname = false)
    (s : Stats) (h : getUnitedDict (chunks.map (getStatistics vname)) = .ok s) :
    NoTargetZero s := by
  refine getUnitedDict_preserve NoTargetZero noTargetZero_statsUpdate _ ?_ s h
  intro p hp t hpt
  rcases List.mem_map.mp hp with ⟨c, hc, rfl⟩
  exact getStatistics_no_match vname c (hm c hc) t hpt

unseal Rat.add Rat.mul Rat.inv Rat.sub in
/-- C3, witness: the amended theorem applied to the two concrete chunks
`[rowProg]` and `[rowData]`, none of whose rows contains `"zz"`. -/
theorem c3_witness :
    NoTargetZero { stat_salary := [(2020, 100), (2021, 250)],
                   vacancies_number := [(2020, 1), (2021, 1)],
                   stat_salary_by_vac := [(2020, 0), (2021, 0)],
                   vacs_per_name := [(2020, 0), (2021, 0)] } :=
  c3_amended "zz" [[rowProg], [rowData]] (by decide) _ (by decide)

/-- C4, counterexample.  A chunk with zero valid rows finalizes without any
error: `get_statistics` returns four empty dictionaries.  No explicit
NoVacancies error is raised and nothing aborts — the share loop body never
runs because `salary_city` is empty whenever `vacancies_count` is 0, so the
division by zero the claim expects never happens. -/
theorem c4_counterexample :
    getStatistics "x" [] = .ok { stat_salary := [], vacancies_number := [],
                                 stat_salary_by_vac := [], vacs_per_name := [] } := rfl

/-- C4, amended.  Finalizing a total of zero valid rows completes silently
with four empty mappings instead of aborting: the `ZeroDivisionError` branch
of the share computation is unreachable for every input, because a state
with `vacancies_count = 0` always has an empty `salary_city`. -/
theorem c4_amended :
    (∀ (vname : String) (rows : List Row), isZeroDiv (getStatistics vname rows) = false) ∧
    (∀ vname : String,
      getStatistics vname [] =
        .ok { stat_salary := [], vacancies_number := [],
              stat_salary_by_vac := [], vacs_per_name := [] }) :=
  ⟨getStatistics_not_zeroDiv, fun _ => rfl⟩

/-- C5, counterexample.  On an empty sequence of chunk results the merge is
not total: `pools[0]` raises `IndexError` instead of returning an empty
result, refuting the out-of-bounds-free part of the claim. -/
theorem c5_counterexample : getUnitedDict [] = .error Err.indexError := rfl

/-- C5, amended.  For a single chunk result the merge is the identity, as
claimed; but for an empty sequence it fails with an index error (the
out-of-bounds `pools[0]` access) rather than returning an empty result. -/
theorem c5_amended :
    getUnitedDict [] = .error Err.indexError ∧
    ∀ a : Stats, getUnitedDict [Except.ok a] = .ok a :=
  ⟨rfl, fun _ => rfl⟩

unseal Rat.add Rat.mul Rat.inv Rat.sub in
/-- C6, counterexample.  The finalizer computes Python `int(sum/len)`, which
truncates toward zero, not `floor`: for the one-element list `[-3/2]` the
produced value is `-1` while `floor(-3/2) = -2`.  (The middle conjunct
records that the average of that list is exactly `-3/2`.) -/
theorem c6_counterexample :
    dictLookup (getAverageDict [((2020 : ℤ), [(-3 : ℚ)/2])]) 2020 = some (-1) ∧
    ([(-3 : ℚ)/2].sum / (([(-3 : ℚ)/2].length : ℕ) : ℚ)) = (-3 : ℚ)/2 ∧
    ⌊(-3 : ℚ)/2⌋ = -2 := by
  refine ⟨by decide, by decide, by decide⟩

/-- C6, amended.  For every key bound to a non-empty list, the finalizer
maps it to the truncation toward zero of `sum(list)/len(list)` (Python
`int(...)`), and this agrees with `floor` exactly when the average is
non-negative. -/
theorem c6_amended {K : Type} [DecidableEq K] (d : List (K × List ℚ)) (k : K) (l : List ℚ)
    (hd : dictLookup d k = some l) (hne : l ≠ []) :
    dictLookup (getAverageDict d) k = some (pyInt (l.sum / (l.length : ℚ))) ∧
    (0 ≤ l.sum / (l.length : ℚ) →
      pyInt (l.sum / (l.length : ℚ)) = ⌊l.sum / (l.length : ℚ)⌋) := by
  constructor
  · rw [dictLookup_getAverageDict, hd]
    rfl
  · intro h
    exact pyInt_eq_floor h

unseal Rat.add Rat.mul Rat.inv Rat.sub in
/-- C6, witness: the amended theorem applied to the dictionary
`[(2020, [100])]`. -/
theorem c6_witness :
    dictLookup (getAverageDict [((2020 : ℤ), [(100 : ℚ)])]) 2020 =
      some (pyInt ([(100 : ℚ)].sum / (([(100 : ℚ)].length : ℕ) : ℚ))) ∧
    (0 ≤ [(100 : ℚ)].sum / (([(100 : ℚ)].length : ℕ) : ℚ) →
      pyInt ([(100 : ℚ)].sum / (([(100 : ℚ)].length : ℕ) : ℚ)) =
        ⌊[(100 : ℚ)].sum / (([(100 : ℚ)].length : ℕ) : ℚ)⌋) :=
  c6_amended [((2020 : ℤ), [(100 : ℚ)])] 2020 [(100 : ℚ)] (by decide) (by decide)

/-- C7, confirmed.  For every row whose currency is in the static table and
whose first four `published_at` characters parse as an integer, the Record
Normalizer truncates the float salary bounds to integers, sets
`salary_average = rate * (salary_from + salary_to) / 2` over the truncated
bounds, and sets `year` to the integer parsed from the 4-character date
slice. -/
theorem c7_record_normalizer (row : Row) (rate : ℚ) (y : ℤ)
    (hc : dictLookup currency_to_rub row.salary_currency = some rate)
    (hy : pyIntOfString (row.published_at.take 4) = some y) :
    Vacancy.make row =
      .ok { name := row.name,
            salary_from := pyInt row.salary_from,
            salary_to := pyInt row.salary_to,
            salary_currency := row.salary_currency,
            salary_average :=
              rate * ((pyInt row.salary_from : ℚ) + (pyInt row.salary_to : ℚ)) / 2,
            area_name := row.area_name,
            year := y } :=
  vacancyMake_ok_fields row rate y hc hy

unseal Rat.add Rat.mul Rat.inv Rat.sub in
/-- C7, witness: the normalizer theorem applied to the concrete row
`rowProg` (currency RUR, rate 1, year 2020). -/
theorem c7_witness :
    Vacancy.make rowProg =
      .ok { name := rowProg.name,
            salary_from := pyInt rowProg.salary_from,
            salary_to := pyInt rowProg.salary_to,
            salary_currency := rowProg.salary_currency,
            salary_average :=
              (1 : ℚ) * ((pyInt rowProg.salary_from : ℚ) + (pyInt rowProg.salary_to : ℚ)) / 2,
            area_name := rowProg.area_name,
            year := 2020 } :=
  c7_record_normalizer rowProg 1 2020 (by decide) (by decide)

/-- C8, confirmed.  A row whose currency code is missing from the static
table makes the normalizer fail with `UnknownCurrency`; a chunk containing
such a row aborts with an error instead of skipping the row; and any errored
chunk result makes `get_united_dict` re-raise instead of dropping it. -/
theorem c8_unknown_currency (row : Row) (vname : String) (rows : List Row)
    (pools : List (Except Err Stats)) (e : Err)
    (hcur : dictLookup currency_to_rub row.salary_currency = none)
    (hrow : row ∈ rows) (hpool : Except.error e ∈ pools) :
    Vacancy.make row = .error Err.unknownCurrency ∧
    (∃ f, getStatistics vname rows = .error f) ∧
    (∃ g, getUnitedDict pools = .error g) := by
  refine ⟨vacancyMake_unknownCurrency row hcur, ?_, ?_⟩
  · cases hres : getStatistics vname rows with
    | error f => exact ⟨f, rfl⟩
    | ok s =>
      rcases getStatistics_ok_inv vname rows s hres with ⟨st, hrun, _⟩
      rcases runChunkAux_ok_rows vname rows _ st hrun row hrow with ⟨v, hv⟩
      rw [vacancyMake_unknownCurrency row hcur] at hv
      cases hv
  · cases hres : getUnitedDict pools with
    | error g => exact ⟨g, rfl⟩
    | ok s =>
      rcases getUnitedDict_ok_inv pools s hres (Except.error e) hpool with ⟨t, ht⟩
      cases ht

/-- C8, witness: the theorem applied to `rowBadCur` (currency XXX), the
one-row chunk containing it, and a pool list holding one errored result. -/
theorem c8_witness :
    Vacancy.make rowBadCur = .error Err.unknownCurrency ∧
    (∃ f, getStatistics "x" [rowBadCur] = .error f) ∧
    (∃ g, getUnitedDict [Except.error Err.unknownCurrency] = .error g) :=
  c8_unknown_currency rowBadCur "x" [rowBadCur] [Except.error Err.unknownCurrency]
    Err.unknownCurrency (by decide) (List.mem_cons_self rowBadCur [])
    (List.mem_cons_self (Except.error Err.unknownCurrency) [])

/-- C9, confirmed.  Every chunk result produced by `get_statistics` has the
year keys of `stat_salary_by_vac` and of `vacs_per_name` among the keys of
`stat_salary`, and the dict-update merge preserves this invariant over any
collection of chunk results. -/
theorem c9_target_keys :
    (∀ (vname : String) (rows : List Row) (s : Stats),
      getStatistics vname rows = .ok s → TargetKeysSub s) ∧
    (∀ (pools : List (Except Err Stats)) (s : Stats),
      (∀ p ∈ pools, ∀ t, p = .ok t → TargetKeysSub t) →
      getUnitedDict pools = .ok s → TargetKeysSub s) :=
  ⟨getStatistics_keys_sub,
   fun pools s hall h => getUnitedDict_preserve TargetKeysSub targetKeysSub_statsUpdate
     pools hall s h⟩

unseal Rat.add Rat.mul Rat.inv Rat.sub in
/-- C9, witness: the invariant instantiated on the one-row chunk `[rowProg]`
and on the singleton pool holding its result. -/
theorem c9_witness :
    TargetKeysSub { stat_salary := [(2020, 100)], vacancies_number := [(2020, 1)],
                    stat_salary_by_vac := [(2020, 100)], vacs_per_name := [(2020, 1)] } ∧
    TargetKeysSub { stat_salary := [(2021, 250)], vacancies_number := [(2021, 1)],
                    stat_salary_by_vac := [(2021, 0)], vacs_per_name := [(2021, 0)] } :=
  ⟨c9_target_keys.1 "prog" [rowProg] _ (by decide),
   c9_target_keys.2
    [Except.ok { stat_salary := [(2021, 250)], vacancies_number := [(2021, 1)],
                 stat_salary_by_vac := [(2021, 0)], vacs_per_name := [(2021, 0)] }] _
    (fun p hp t hpt => by
      rcases List.mem_singleton.mp hp with rfl
      cases hpt
      exact ⟨fun k hk => by simpa using hk, fun k hk => by simpa using hk⟩)
    rfl⟩

/-- C10, confirmed.  The coordinator merges already-finalized per-chunk
statistics by dict update: the returned value is the first chunk's tuple
with the fold of updates applied, each of the four mappings has the union of
the chunks' key sets, and a key held by several chunks keeps the finalized
value of the last chunk (in task order) containing it — `none` exactly when
no chunk holds it. -/
theorem c10_merge_semantics (a : Stats) (rest : List Stats)
    (hnd : ∀ s ∈ a :: rest, ∀ proj ∈ projList, (keysOf (proj s)).Nodup) :
    getUnitedDict (Except.ok a :: rest.map Except.ok) = .ok (rest.foldl statsUpdate a) ∧
    (∀ proj ∈ projList, ∀ k : ℤ,
      (k ∈ keysOf (proj (rest.foldl statsUpdate a)) ↔ ∃ s ∈ a :: rest, k ∈ keysOf (proj s)) ∧
      dictLookup (proj (rest.foldl statsUpdate a)) k =
        (a :: rest).reverse.findSome? (fun s => dictLookup (proj s) k)) := by
  constructor
  · simp only [getUnitedDict]
    exact mergeRest_map_ok rest a
  · intro proj hproj k
    constructor
    · exact mem_keys_foldl_statsUpdate proj (statsUpdate_proj proj hproj) rest a k
    · exact dictLookup_foldl_statsUpdate proj (statsUpdate_proj proj hproj) rest a
        (fun s hs => hnd s hs proj hproj) k

/-- C10, witness: the merge semantics instantiated on two concrete finalized
chunk results sharing the key 2020. -/
theorem c10_witness :
    getUnitedDict (Except.ok (⟨[(2020, 1)], [], [], []⟩ : Stats) ::
        ([⟨[(2020, 2)], [], [], []⟩] : List Stats).map Except.ok) =
      .ok (([⟨[(2020, 2)], [], [], []⟩] : List Stats).foldl statsUpdate
        ⟨[(2020, 1)], [], [], []⟩) ∧
    (∀ proj ∈ projList, ∀ k : ℤ,
      (k ∈ keysOf (proj (([⟨[(2020, 2)], [], [], []⟩] : List Stats).foldl statsUpdate
          ⟨[(2020, 1)], [], [], []⟩)) ↔
        ∃ s ∈ (⟨[(2020, 1)], [], [], []⟩ : Stats) :: [⟨[(2020, 2)], [], [], []⟩],
          k ∈ keysOf (proj s)) ∧
      dictLookup (proj (([⟨[(2020, 2)], [], [], []⟩] : List Stats).foldl statsUpdate
          ⟨[(2020, 1)], [], [], []⟩)) k =
        ((⟨[(2020, 1)], [], [], []⟩ : Stats) :: [⟨[(2020, 2)], [], [], []⟩]).reverse.findSome?
          (fun s => dictLookup (proj s) k)) :=
  c10_merge_semantics ⟨[(2020, 1)], [], [], []⟩ [⟨[(2020, 2)], [], [], []⟩] (by decide)
